import Mathlib

/-!
# Verification of the ShroonUtils container library

Shallow embedding of the C sources in `src/` (Vector.h, String.h, Hashmap.h,
Hashset.h, HashUtils.h) and proofs about the claims of the specification.

Modelling conventions:
* `size_t` is modelled as `Nat`; where user-supplied quantities enter the
  arithmetic (the vector-level operations), every addition/subtraction is
  taken modulo `W = 2^64`, matching 64-bit `size_t` wraparound.
* A vector's backing allocation is a `List (Option α)` of length `Capacity`;
  `none` models a byte/element the program never wrote (uninitialized memory,
  such as freshly reserved space).  Reads past the allocation also yield
  `none` in the model (in C they are undefined behaviour).
* Allocation always succeeds in the model; the allocation-failure error paths
  of the C code are outside the claims considered here.
-/

/-- `2^64`, the modulus of 64-bit `size_t` arithmetic. -/
def W : Nat := 2 ^ 64

/-- `a - b` in `size_t` arithmetic (wraps below zero): equal to
`(a + (W - b % W)) % W` for every `a` and `b`, written in a case form that
keeps symbolic terms small. -/
def wsub (a b : Nat) : Nat :=
  if b % W ≤ a % W then a % W - b % W else a % W + (W - b % W)

/-- The state of one growable array (Vector.h): the `Size` and `Capacity`
header words together with the contents of the backing allocation
(`data.length = Capacity` for well-formed vectors).  The element size header
is implicit: the model works at element granularity, which is faithful
because every offset the C vector code computes is a whole multiple of
`ElemSize`. -/
structure SUTLVector (α : Type) where
  Size : Nat
  Capacity : Nat
  data : List (Option α)

/-- Well-formedness of a vector state: header words are `size_t` values and
the allocation really holds `Capacity` elements. -/
def SUTLVector.wf (v : SUTLVector α) : Prop :=
  v.Size ≤ v.Capacity ∧ v.data.length = v.Capacity ∧ v.Capacity < W

/-- `SUTL_InternalVectorNew` (Vector.h): a fresh vector, `Size = 0`,
`Capacity = 0`, empty allocation. -/
def SUTL_InternalVectorNew (α : Type) : SUTLVector α := ⟨0, 0, []⟩

/-- `SUTL_InternalVectorReserve` (Vector.h): reject `size < Size` with an
error (the `Bool` result is `true` iff the error callback was invoked),
otherwise reallocate to exactly `size` elements.  `realloc` preserves the
prefix of the old block; the rest of the new block is uninitialized. -/
def SUTL_InternalVectorReserve (v : SUTLVector α) (size : Nat) :
    SUTLVector α × Bool :=
  if size < v.Size then
    (v, true)
  else
    ({ Size := v.Size, Capacity := size,
       data := v.data.take size ++ List.replicate (size - v.data.length) none },
     false)

/-- `SUTL_InternalVectorResize` (Vector.h): reserve `size + 2` elements if
(and only if) the current size and capacity are both below `size`, then set
`Size := size` unconditionally. -/
def SUTL_InternalVectorResize (v : SUTLVector α) (size : Nat) : SUTLVector α :=
  let v' :=
    if v.Size < size then
      if v.Capacity < size then (SUTL_InternalVectorReserve v ((size + 2) % W)).1
      else v
    else v
  { v' with Size := size }

/-- `SUTL_InternalVectorInsertN` (Vector.h): reject `i > Size` (error + NULL
result), else resize to `Size + count`, shift `[i, Size)` right by `count`
(a `memmove`, skipped when `i = Size`), and `memcpy` the source into the
gap.  The returned pointer is modelled as the element offset of the first
inserted element (`none` models the NULL return). -/
def SUTL_InternalVectorInsertN (v : SUTLVector α) (i : Nat) (src : List α) :
    SUTLVector α × Option Nat :=
  if i > v.Size then
    (v, none)
  else
    let os := v.Size
    let cnt := src.length
    let v1 := SUTL_InternalVectorResize v ((os + cnt) % W)
    let v2 :=
      if i ≠ os then
        { v1 with data :=
            v1.data.take (i + cnt) ++ (v1.data.drop i).take (os - i) ++
              v1.data.drop (os + cnt) }
      else v1
    ({ v2 with data := v2.data.take i ++ src.map some ++ v2.data.drop (i + cnt) },
     some i)

/-- The tail of `SUTL_InternalVectorEraseN` after the clamp logic fixed the
count `c`: shift `[i + c, Size)` left by `c` (skipped when `i + c = Size`)
and decrement `Size` by `c` (in `size_t` arithmetic). -/
def SUTL_InternalVectorEraseCore (v : SUTLVector α) (i c : Nat) :
    SUTLVector α × Bool :=
  let v' :=
    if (i + c) % W ≠ v.Size then
      { v with data :=
          v.data.take i ++ (v.data.drop ((i + c) % W)).take (wsub (wsub v.Size c) i) ++
            v.data.drop (wsub v.Size c) }
    else v
  ({ v' with Size := wsub v.Size c }, false)

/-- `SUTL_InternalVectorEraseN` (Vector.h): when `i + count > Size` (a
`size_t` comparison, so the sum wraps modulo `2^64`), report an error if
additionally `i > Size`, else clamp `count` to `Size - i`; then shift and
decrement.  The `Bool` result is `true` iff the error callback was
invoked. -/
def SUTL_InternalVectorEraseN (v : SUTLVector α) (i cnt : Nat) :
    SUTLVector α × Bool :=
  if (i + cnt) % W > v.Size then
    if i > v.Size then
      (v, true)
    else
      SUTL_InternalVectorEraseCore v i (v.Size - i)
  else
    SUTL_InternalVectorEraseCore v i cnt

/-- A byte string (String.h) is a vector of `char`; bytes are modelled as
naturals below `256`. -/
abbrev SUTLString := SUTLVector Nat

/-- `SUTL_InternalStringSlice` (String.h): reject `at ≥ Size` (error + NULL);
a requested size of `0` means "up to the end"; the fresh slice is resized to
the requested size, but only the available `min(size, Size - at)` bytes are
copied into it (`memcpy` from `str + at`); the rest of the new allocation is
never written.  Result: the new string (or `none` for NULL) and the
error flag. -/
def SUTL_InternalStringSlice (str : SUTLString) (i sz : Nat) :
    Option SUTLString × Bool :=
  let strSize := str.Size
  if i ≥ strSize then
    (none, true)
  else
    let sz1 := if sz = 0 then strSize - i else sz
    let slice0 := SUTL_InternalVectorNew Nat
    let slice1 := SUTL_InternalVectorResize slice0 sz1
    let cpy := if (i + sz1) % W > strSize then strSize - i else sz1
    (some { slice1 with data :=
        (List.range cpy).map (fun j => str.data.getD (i + j) none) ++
          slice1.data.drop cpy },
     false)

/-- The `size_t` word (8 bytes, little-endian) read from byte offset `8 * j`
of the byte list `s`, as done by `buf[i]` in `SUTLHash_string`. -/
def chunkAt (s : List Nat) (j : Nat) : Nat :=
  (List.range 8).foldl (fun acc b => acc + s.getD (8 * j + b) 0 * 256 ^ b) 0

/-- `SUTLHash_string` (HashUtils.h): the accumulator starts at `SIZE_MAX`
and is XOR-folded with the `length / 8` word-sized chunks of the string.
The subsequent tail loop executes `((char *)hash)[i] ^= ...`: it uses the
accumulator's *value* as an address and XORs the tail bytes into the memory
there (undefined behaviour); the accumulator itself is never updated by it,
so the returned hash is the chunk fold alone. -/
def SUTLHash_string (s : List Nat) : Nat :=
  let bufSize := s.length / 8
  (List.range bufSize).foldl (fun h j => h ^^^ chunkAt s j) (W - 1)

/-- Modelled from the spec (§4.5): the byte-string hash is "an XOR-fold over
word-sized chunks, with a byte-wise tail fold" — the `length % 8` tail bytes
are XORed into the corresponding low-order bytes of the accumulator
(little-endian, i.e. tail byte `i` into byte `i` of the accumulator, which
for bytes `< 256` is `h ^^^ b * 256^i`). -/
def specStringHash (s : List Nat) : Nat :=
  let bufSize := s.length / 8
  let remSize := s.length % 8
  let h := (List.range bufSize).foldl (fun h j => h ^^^ chunkAt s j) (W - 1)
  (List.range remSize).foldl
    (fun h i => h ^^^ s.getD (bufSize * 8 + i) 0 * 256 ^ i) h

/-!
## Bucket vectors

The hash map and hash set store each bucket in a vector of `char`
(`SUTLVectorNew(char)`), mutated only through `SUTLVectorPushN`
(= `SUTL_InternalVectorInsertN` at `at = Size`) and
`SUTL_InternalVectorEraseN`.  The definitions below are those two vector
operations, specialised to buckets, with the `size_t` arithmetic taken
exactly (plain `Nat`): every quantity entering the arithmetic here is
bounded by the byte length of an allocated bucket (plus one key/value), so
64-bit wraparound is unreachable for any bucket a real execution can
allocate, and the exact semantics is the faithful one.
-/

/-- A bucket: a vector of `char`.  `Size`/offsets count bytes. -/
abbrev ByteVec := SUTLVector Nat

/-- A fresh bucket (`SUTLVectorNew(char)`). -/
def bvNew : ByteVec := ⟨0, 0, []⟩

/-- `SUTL_InternalVectorReserve` on a bucket (exact arithmetic). -/
def bvReserve (v : ByteVec) (size : Nat) : ByteVec × Bool :=
  if size < v.Size then
    (v, true)
  else
    ({ Size := v.Size, Capacity := size,
       data := v.data.take size ++ List.replicate (size - v.data.length) none },
     false)

/-- `SUTL_InternalVectorResize` on a bucket (exact arithmetic). -/
def bvResize (v : ByteVec) (size : Nat) : ByteVec :=
  let v' :=
    if v.Size < size then
      if v.Capacity < size then (bvReserve v (size + 2)).1
      else v
    else v
  { v' with Size := size }

/-- `SUTL_InternalVectorInsertN` on a bucket (exact arithmetic).  The source
is a list of `Option` bytes because the pushed bytes come from the one-shot
parameter buffers `ParamK`/`ParamV`, whose trailing bytes are uninitialized
when the staged value is narrower than the buffer. -/
def bvInsertN (v : ByteVec) (i : Nat) (src : List (Option Nat)) :
    ByteVec × Option Nat :=
  if i > v.Size then
    (v, none)
  else
    let os := v.Size
    let cnt := src.length
    let v1 := bvResize v (os + cnt)
    let v2 :=
      if i ≠ os then
        { v1 with data :=
            v1.data.take (i + cnt) ++ (v1.data.drop i).take (os - i) ++
              v1.data.drop (os + cnt) }
      else v1
    ({ v2 with data := v2.data.take i ++ src ++ v2.data.drop (i + cnt) },
     some i)

/-- `SUTLVectorPushN` on a bucket: insert at the current end. -/
def bvPushN (v : ByteVec) (src : List (Option Nat)) : ByteVec × Option Nat :=
  bvInsertN v v.Size src

/-- `SUTL_InternalVectorEraseCore` on a bucket (exact arithmetic): the tail
of `EraseN` once the clamp logic fixed the count `c`. -/
def bvEraseCore (v : ByteVec) (i c : Nat) : ByteVec × Bool :=
  let v' :=
    if i + c ≠ v.Size then
      { v with data :=
          v.data.take i ++ (v.data.drop (i + c)).take (v.Size - c - i) ++
            v.data.drop (v.Size - c) }
    else v
  ({ v' with Size := v.Size - c }, false)

/-- `SUTL_InternalVectorEraseN` on a bucket (exact arithmetic). -/
def bvEraseN (v : ByteVec) (i cnt : Nat) : ByteVec × Bool :=
  if i + cnt > v.Size then
    if i > v.Size then
      (v, true)
    else
      bvEraseCore v i (v.Size - i)
  else
    bvEraseCore v i cnt

/-- Read `len` bytes of bucket `v` starting at byte offset `off`, as the key
comparison `KeyComp(ParamK, Keys[index] + i * KeySize)` does.  Reads beyond
the allocation (undefined behaviour in C) yield `none`. -/
def bvRead (v : ByteVec) (off len : Nat) : List (Option Nat) :=
  (List.range len).map (fun j => v.data.getD (off + j) none)

/-- The staged content of a one-element parameter buffer of `sz` bytes after
`*(t *)Param = x` wrote the bytes of `x` into it: byte `j` is `x`'s byte `j`
(uninitialized when `x` is shorter than the buffer, which cannot happen for
well-typed C callers). -/
def stage (x : List Nat) (sz : Nat) : List (Option Nat) :=
  (List.range sz).map (fun j => (x.map some).getD j none)

/-!
## Hash map (Hashmap.h)

`SUTL_HASHMAP_BUCKET_COUNT` is its default value `32`.  The bucket arrays
are indexed by `Nat` for convenience; every access computes the index as
`Hash(...) % 32`, exactly as the source does, so indices `≥ 32` are never
consulted.  The injected hash and comparison functions operate on the raw
bytes their `const void *` arguments point to, hence on `List (Option Nat)`.
A returned value pointer is modelled as `some (bucket, byteOffset)` into the
`Values` arrays (`none` is NULL).
-/

/-- The state of a `SUTLHashmap` (Hashmap.h).  The scratch buffers `ParamK`
and `ParamV` are not part of the state: each operation overwrites them with
its staged argument, modelled by applying `stage` to the argument. -/
structure SUTLHashmap where
  Size : Nat
  KeySize : Nat
  ValueSize : Nat
  Keys : Nat → ByteVec
  Values : Nat → ByteVec
  Hash : List (Option Nat) → Nat
  KeyComp : List (Option Nat) → List (Option Nat) → Bool

/-- `SUTL_InternalHashmapNew`: all 32 buckets fresh, `Size = 0`. -/
def SUTL_InternalHashmapNew (keysize valuesize : Nat)
    (hash : List (Option Nat) → Nat)
    (keycomp : List (Option Nat) → List (Option Nat) → Bool) : SUTLHashmap :=
  { Size := 0, KeySize := keysize, ValueSize := valuesize,
    Keys := fun _ => bvNew, Values := fun _ => bvNew,
    Hash := hash, KeyComp := keycomp }

/-- The linear scan of `SUTL_InternalHashmapInsert`: it visits every entry
index `< bound` and, having no `break`, remembers the *last* index whose key
compares equal. -/
def hmFindLast (p : Nat → Bool) (bound : Nat) : Option Nat :=
  (List.range bound).foldl (fun acc i => if p i then some i else acc) none

/-- `SUTL_InternalHashmapInsert`: select the bucket by `Hash % 32`,
increment `Size` (a `size_t` increment, done before the existing-key check
and never undone), scan the bucket's `Size / KeySize` entries for the staged
key; if found, return `Values[index] + i * KeySize` — note the stride
`KeySize`, as in the source (`Hashmap.h` line 280), not `ValueSize`;
otherwise append the staged key and value to the bucket's two arrays and
return the pointer `PushN` produced for the value. -/
def SUTL_InternalHashmapInsert (hm : SUTLHashmap) (k v : List Nat) :
    SUTLHashmap × Option (Nat × Nat) :=
  let pk := stage k hm.KeySize
  let pv := stage v hm.ValueSize
  let index := hm.Hash pk % 32
  let hm1 := { hm with Size := (hm.Size + 1) % W }
  let found := hmFindLast
    (fun i => hm.KeyComp pk (bvRead (hm.Keys index) (i * hm.KeySize) hm.KeySize))
    ((hm.Keys index).Size / hm.KeySize)
  match found with
  | some i => (hm1, some (index, i * hm.KeySize))
  | none =>
    let keys' := (bvPushN (hm.Keys index) pk).1
    let pushV := bvPushN (hm.Values index) pv
    ({ hm1 with
        Keys := fun j => if j = index then keys' else hm.Keys j,
        Values := fun j => if j = index then pushV.1 else hm.Values j },
     pushV.2.map (fun off => (index, off)))

/-- The linear scan of `SUTL_InternalHashmapErase`, which `break`s at the
first match: returns the first index `< bound` satisfying `p` together with
the list of indices at which a comparison was performed. -/
def hmScanFirst (p : Nat → Bool) (start fuel : Nat) : Option Nat × List Nat :=
  match fuel with
  | 0 => (none, [])
  | fuel + 1 =>
    if p start then (some start, [start])
    else
      let r := hmScanFirst p (start + 1) fuel
      (r.1, start :: r.2)

/-- `SUTL_InternalHashmapErase`: scan the bucket — the loop bound is
`SUTLVectorSize(Keys[index])`, the bucket's raw *byte* count (`Hashmap.h`
line 312), each iteration comparing the key slot at byte offset
`i * KeySize`; at the first match, erase `KeySize` bytes of the key array at
`i * KeySize` and `ValueSize` bytes of the value array at `i * ValueSize`,
decrement `Size`, and stop.  The `Bool` result is `true` iff some error
callback was invoked. -/
def SUTL_InternalHashmapErase (hm : SUTLHashmap) (k : List Nat) :
    SUTLHashmap × Bool :=
  let pk := stage k hm.KeySize
  let index := hm.Hash pk % 32
  let scan := hmScanFirst
    (fun i => hm.KeyComp pk (bvRead (hm.Keys index) (i * hm.KeySize) hm.KeySize))
    0 (hm.Keys index).Size
  match scan.1 with
  | none => (hm, false)
  | some i =>
    let eraseK := bvEraseN (hm.Keys index) (i * hm.KeySize) hm.KeySize
    let eraseV := bvEraseN (hm.Values index) (i * hm.ValueSize) hm.ValueSize
    ({ hm with
        Size := wsub hm.Size 1,
        Keys := fun j => if j = index then eraseK.1 else hm.Keys j,
        Values := fun j => if j = index then eraseV.1 else hm.Values j },
     eraseK.2 || eraseV.2)

/-- The byte offsets (in units of `KeySize`, i.e. the loop counter `i`) at
which `SUTL_InternalHashmapErase` performs key comparisons. -/
def hmEraseProbes (hm : SUTLHashmap) (k : List Nat) : List Nat :=
  let pk := stage k hm.KeySize
  let index := hm.Hash pk % 32
  (hmScanFirst
    (fun i => hm.KeyComp pk (bvRead (hm.Keys index) (i * hm.KeySize) hm.KeySize))
    0 (hm.Keys index).Size).2

/-- `SUTL_InternalHashmapGet`: scan the bucket's `Size / KeySize` entries
and return `Values[index] + i * ValueSize` for the first match (`return`
inside the loop), or NULL. -/
def SUTL_InternalHashmapGet (hm : SUTLHashmap) (k : List Nat) :
    Option (Nat × Nat) :=
  let pk := stage k hm.KeySize
  let index := hm.Hash pk % 32
  match (List.range ((hm.Keys index).Size / hm.KeySize)).find?
      (fun i => hm.KeyComp pk (bvRead (hm.Keys index) (i * hm.KeySize) hm.KeySize)) with
  | some i => some (index, i * hm.ValueSize)
  | none => none

/-- The `ValueSize` bytes a caller reads through the pointer
`SUTL_InternalHashmapGet` returned (or `none` for NULL). -/
def hmGetVal (hm : SUTLHashmap) (k : List Nat) : Option (List (Option Nat)) :=
  (SUTL_InternalHashmapGet hm k).map
    (fun r => bvRead (hm.Values r.1) r.2 hm.ValueSize)

/-!
## Hash set (Hashset.h)

Identical to the map except that entries carry no separate value: the key
array doubles as the value array.
-/

/-- The state of a `SUTLHashset` (Hashset.h). -/
structure SUTLHashset where
  Size : Nat
  KeySize : Nat
  Keys : Nat → ByteVec
  Hash : List (Option Nat) → Nat
  KeyComp : List (Option Nat) → List (Option Nat) → Bool

/-- `SUTL_InternalHashsetNew`. -/
def SUTL_InternalHashsetNew (keysize : Nat)
    (hash : List (Option Nat) → Nat)
    (keycomp : List (Option Nat) → List (Option Nat) → Bool) : SUTLHashset :=
  { Size := 0, KeySize := keysize, Keys := fun _ => bvNew,
    Hash := hash, KeyComp := keycomp }

/-- `SUTL_InternalHashsetInsert`: as the map's insert, with the entry
pointer `Keys[index] + i * KeySize` returned on a match (here `KeySize` is
the right stride, since the key is the value) and a single `PushN`
otherwise.  `Size` is incremented before the existing-key check. -/
def SUTL_InternalHashsetInsert (hs : SUTLHashset) (k : List Nat) :
    SUTLHashset × Option (Nat × Nat) :=
  let pk := stage k hs.KeySize
  let index := hs.Hash pk % 32
  let hs1 := { hs with Size := (hs.Size + 1) % W }
  let found := hmFindLast
    (fun i => hs.KeyComp pk (bvRead (hs.Keys index) (i * hs.KeySize) hs.KeySize))
    ((hs.Keys index).Size / hs.KeySize)
  match found with
  | some i => (hs1, some (index, i * hs.KeySize))
  | none =>
    let pushK := bvPushN (hs.Keys index) pk
    ({ hs1 with Keys := fun j => if j = index then pushK.1 else hs.Keys j },
     pushK.2.map (fun off => (index, off)))

/-- One public hash-map operation (the mutating interface of Hashmap.h). -/
inductive HMOp where
  | insert (k v : List Nat)
  | erase (k : List Nat)
  | get (k : List Nat)

/-- Apply one operation to a map state (`Get` does not mutate). -/
def hmApplyOp (hm : SUTLHashmap) : HMOp → SUTLHashmap
  | .insert k v => (SUTL_InternalHashmapInsert hm k v).1
  | .erase k => (SUTL_InternalHashmapErase hm k).1
  | .get _ => hm

/-- Apply a finite sequence of operations, left to right. -/
def hmApplyOps (hm : SUTLHashmap) (ops : List HMOp) : SUTLHashmap :=
  ops.foldl hmApplyOp hm

/-- The per-bucket consistency invariant: in every bucket some common entry
count `n` measures both arrays — the key array holds `n * KeySize` bytes and
the value array `n * ValueSize` bytes. -/
def bucketsConsistent (hm : SUTLHashmap) : Prop :=
  ∀ b, ∃ n, (hm.Keys b).Size = n * hm.KeySize ∧
    (hm.Values b).Size = n * hm.ValueSize

/-!
## Concrete instances used by the counterexample and bug-evaluation theorems
-/

/-- Byte-wise equality, the comparison behaviour of the registry's
`SUTLCmp_*` functions on fully written, equal-size operands. -/
def eqComp : List (Option Nat) → List (Option Nat) → Bool := fun a b => a == b

/-- A hash function sending every key to bucket `0` (forcing collisions). -/
def zeroHash : List (Option Nat) → Nat := fun _ => 0

/-- A map with 1-byte keys and 2-byte values, empty. -/
def m0 : SUTLHashmap := SUTL_InternalHashmapNew 1 2 zeroHash eqComp

/-- `m0` after inserting key `7` with value `(10, 11)`. -/
def m1 : SUTLHashmap := (SUTL_InternalHashmapInsert m0 [7] [10, 11]).1

/-- `m1` after inserting key `9` with value `(20, 21)`: bucket 0 now holds
the keys `7, 9` at entry indices `0, 1`. -/
def m2 : SUTLHashmap := (SUTL_InternalHashmapInsert m1 [9] [20, 21]).1

/-- A map with 2-byte keys and 2-byte values, empty. -/
def p0 : SUTLHashmap := SUTL_InternalHashmapNew 2 2 zeroHash eqComp

/-- `p0` after inserting key `(3, 4)`: one live entry in bucket 0. -/
def p1 : SUTLHashmap := (SUTL_InternalHashmapInsert p0 [3, 4] [1, 1]).1

/-- A map with 1-byte keys and 1-byte values, empty. -/
def r0 : SUTLHashmap := SUTL_InternalHashmapNew 1 1 zeroHash eqComp

/-- `r0` after inserting key `5` with value `7`. -/
def r1 : SUTLHashmap := (SUTL_InternalHashmapInsert r0 [5] [7]).1

/-- The ten ASCII digits `"0123456789"` as a byte string. -/
def str10 : SUTLString := ⟨10, 10, (List.range 10).map (fun d => some (48 + d))⟩

/-!
## Arithmetic and list helper lemmas
-/

theorem W_pos : 0 < W := by unfold W; positivity

theorem getD_range_map {β : Type} (f : Nat → β) (n j : Nat) (d : β) (h : j < n) :
    ((List.range n).map f).getD j d = f j := by
  rw [List.getD_eq_getElem _ _ (by simpa using h)]
  simp

theorem getD_replicate_none {β : Type} (m q : Nat) :
    (List.replicate m (none : Option β)).getD q none = none := by
  by_cases h : q < m
  · rw [List.getD_eq_getElem _ _ (by simpa using h)]
    simp
  · exact List.getD_eq_default _ _ (by simpa using Nat.le_of_not_lt h)

theorem range_map_getD {β : Type} (l : List β) (d : β) :
    (List.range l.length).map (fun j => l.getD j d) = l := by
  induction l with
  | nil => rfl
  | cons a l ih =>
    rw [List.length_cons, List.range_succ_eq_map, List.map_cons, List.map_map]
    simp only [Function.comp_def, List.getD_cons_zero, List.getD_cons_succ]
    rw [ih]

theorem stage_length (x : List Nat) (sz : Nat) : (stage x sz).length = sz := by
  simp [stage]

theorem stage_of_length (x : List Nat) (sz : Nat) (h : x.length = sz) :
    stage x sz = x.map some := by
  subst h
  unfold stage
  have h2 : x.length = (x.map some).length := by simp
  rw [h2, range_map_getD]

theorem wsub_eq_sub (a b : Nat) (hb : b ≤ a) (ha : a < W) : wsub a b = a - b := by
  unfold wsub
  rw [Nat.mod_eq_of_lt (lt_of_le_of_lt hb ha), Nat.mod_eq_of_lt ha, if_pos hb]

theorem resize_new (sz : Nat) (hsz : 0 < sz) (hszW : sz + 2 < W) :
    SUTL_InternalVectorResize (SUTL_InternalVectorNew Nat) sz =
      ⟨sz, sz + 2, List.replicate (sz + 2) none⟩ := by
  unfold SUTL_InternalVectorResize SUTL_InternalVectorReserve SUTL_InternalVectorNew
  rw [Nat.mod_eq_of_lt hszW]
  simp [hsz]

theorem slice_eval_pos (str : SUTLString) (i sz : Nat) (hi : i < str.Size)
    (hsz : 0 < sz) (hW : i + sz < W) (hszW : sz + 2 < W) :
    SUTL_InternalStringSlice str i sz =
      (some ⟨sz, sz + 2,
        (List.range (min sz (str.Size - i))).map
            (fun j => str.data.getD (i + j) none) ++
          (List.replicate (sz + 2) none).drop (min sz (str.Size - i))⟩, false) := by
  have hi' : ¬ i ≥ str.Size := not_le.mpr hi
  have hsz' : sz ≠ 0 := Nat.pos_iff_ne_zero.mp hsz
  unfold SUTL_InternalStringSlice
  rw [if_neg hi']
  simp only [if_neg hsz', resize_new sz hsz hszW, Nat.mod_eq_of_lt hW]
  have hcpy : (if str.Size < i + sz then str.Size - i else sz) =
      min sz (str.Size - i) := by
    split <;> omega
  rw [hcpy]

theorem slice_eval_zero (str : SUTLString) (i : Nat) (hi : i < str.Size)
    (hS : str.Size + 2 < W) :
    SUTL_InternalStringSlice str i 0 =
      (some ⟨str.Size - i, str.Size - i + 2,
        (List.range (str.Size - i)).map
            (fun j => str.data.getD (i + j) none) ++
          (List.replicate (str.Size - i + 2) none).drop (str.Size - i)⟩, false) := by
  have hi' : ¬ i ≥ str.Size := not_le.mpr hi
  unfold SUTL_InternalStringSlice
  rw [if_neg hi']
  have h1 : 0 < str.Size - i := by omega
  have h2 : str.Size - i + 2 < W := by omega
  have h3 : (i + (str.Size - i)) % W = str.Size := by
    rw [Nat.add_sub_cancel' (Nat.le_of_lt hi), Nat.mod_eq_of_lt (by omega)]
  simp only [if_true, resize_new (str.Size - i) h1 h2, h3, lt_irrefl, if_false]

theorem bvPushN_new (src : List (Option Nat)) (len : Nat) (hl : src.length = len)
    (h0 : 0 < len) :
    bvPushN bvNew src = (⟨len, len + 2, src ++ List.replicate 2 none⟩, some 0) := by
  subst hl
  unfold bvPushN bvInsertN bvResize bvReserve bvNew
  simp [h0, List.drop_replicate]

theorem bvRead_self (src junk : List (Option Nat)) (S C len : Nat)
    (hl : src.length = len) :
    bvRead ⟨S, C, src ++ junk⟩ 0 len = src := by
  subst hl
  unfold bvRead
  conv_rhs => rw [← range_map_getD src none]
  refine List.map_congr_left fun j hj => ?_
  rw [List.mem_range] at hj
  rw [Nat.zero_add, List.getD_append _ _ _ _ hj]

theorem hmScanFirst_pos (p : Nat → Bool) (start fuel : Nat) (hf : 0 < fuel)
    (hp : p start = true) :
    hmScanFirst p start fuel = (some start, [start]) := by
  cases fuel with
  | zero => omega
  | succ n =>
    unfold hmScanFirst
    rw [if_pos hp]

theorem bvEraseN_full (v : ByteVec) : bvEraseN v 0 v.Size = ({ v with Size := 0 }, false) := by
  unfold bvEraseN bvEraseCore
  simp

theorem bvRead_data (v : ByteVec) (src junk : List (Option Nat)) (len : Nat)
    (hd : v.data = src ++ junk) (hl : src.length = len) :
    bvRead v 0 len = src := by
  subst hl
  unfold bvRead
  rw [hd]
  conv_rhs => rw [← range_map_getD src none]
  refine List.map_congr_left fun j hj => ?_
  rw [List.mem_range] at hj
  rw [Nat.zero_add, List.getD_append _ _ _ _ hj]

theorem bvEraseN_size_eq (v : ByteVec) (cnt : Nat) (hc : cnt = v.Size) :
    bvEraseN v 0 cnt = ({ v with Size := 0 }, false) := by
  subst hc
  exact bvEraseN_full v

theorem hmGet_found_first (hm : SUTLHashmap) (k : List Nat)
    (hks : 0 < hm.KeySize)
    (hsizeK : (hm.Keys (hm.Hash (stage k hm.KeySize) % 32)).Size = hm.KeySize)
    (hdata : ∃ junk, (hm.Keys (hm.Hash (stage k hm.KeySize) % 32)).data =
        stage k hm.KeySize ++ junk)
    (hrefl : hm.KeyComp (stage k hm.KeySize) (stage k hm.KeySize) = true) :
    SUTL_InternalHashmapGet hm k = some (hm.Hash (stage k hm.KeySize) % 32, 0) := by
  obtain ⟨junk, hd⟩ := hdata
  have hp : hm.KeyComp (stage k hm.KeySize)
      (bvRead (hm.Keys (hm.Hash (stage k hm.KeySize) % 32))
        (0 * hm.KeySize) hm.KeySize) = true := by
    rw [zero_mul, bvRead_data _ _ junk _ hd (stage_length _ _), hrefl]
  have hr1 : List.range 1 = [0] := rfl
  have hfind : List.find?
      (fun i => hm.KeyComp (stage k hm.KeySize)
        (bvRead (hm.Keys (hm.Hash (stage k hm.KeySize) % 32)) (i * hm.KeySize)
          hm.KeySize)) [0] = some 0 := by
    rw [List.find?_cons_of_pos]
    exact hp
  unfold SUTL_InternalHashmapGet
  simp only [hsizeK, Nat.div_self hks, hr1, hfind, zero_mul]

theorem hmGet_empty_bucket (hm : SUTLHashmap) (k : List Nat)
    (hempty : (hm.Keys (hm.Hash (stage k hm.KeySize) % 32)).Size = 0) :
    SUTL_InternalHashmapGet hm k = none := by
  unfold SUTL_InternalHashmapGet
  simp only [hempty, Nat.zero_div, List.range_zero, List.find?_nil]

theorem hmErase_found_first (hm : SUTLHashmap) (k : List Nat)
    (hks : 0 < hm.KeySize)
    (hsizeK : (hm.Keys (hm.Hash (stage k hm.KeySize) % 32)).Size = hm.KeySize)
    (hsizeV : (hm.Values (hm.Hash (stage k hm.KeySize) % 32)).Size = hm.ValueSize)
    (hdata : ∃ junk, (hm.Keys (hm.Hash (stage k hm.KeySize) % 32)).data =
        stage k hm.KeySize ++ junk)
    (hrefl : hm.KeyComp (stage k hm.KeySize) (stage k hm.KeySize) = true) :
    SUTL_InternalHashmapErase hm k =
      ({ hm with
          Size := wsub hm.Size 1,
          Keys := fun j => if j = hm.Hash (stage k hm.KeySize) % 32 then
              { hm.Keys (hm.Hash (stage k hm.KeySize) % 32) with Size := 0 }
            else hm.Keys j,
          Values := fun j => if j = hm.Hash (stage k hm.KeySize) % 32 then
              { hm.Values (hm.Hash (stage k hm.KeySize) % 32) with Size := 0 }
            else hm.Values j }, false) := by
  obtain ⟨junk, hd⟩ := hdata
  have hp : hm.KeyComp (stage k hm.KeySize)
      (bvRead (hm.Keys (hm.Hash (stage k hm.KeySize) % 32))
        (0 * hm.KeySize) hm.KeySize) = true := by
    rw [zero_mul, bvRead_data _ _ junk _ hd (stage_length _ _), hrefl]
  have h0 : 0 < (hm.Keys (hm.Hash (stage k hm.KeySize) % 32)).Size := by omega
  unfold SUTL_InternalHashmapErase
  simp only [hmScanFirst_pos
    (fun i => hm.KeyComp (stage k hm.KeySize)
      (bvRead (hm.Keys (hm.Hash (stage k hm.KeySize) % 32)) (i * hm.KeySize)
        hm.KeySize))
    0 (hm.Keys (hm.Hash (stage k hm.KeySize) % 32)).Size h0 hp]
  simp only [zero_mul, bvEraseN_size_eq _ _ hsizeK.symm,
    bvEraseN_size_eq _ _ hsizeV.symm, Bool.or_self]

theorem hmErase_empty_bucket (hm : SUTLHashmap) (k : List Nat)
    (hempty : (hm.Keys (hm.Hash (stage k hm.KeySize) % 32)).Size = 0) :
    SUTL_InternalHashmapErase hm k = (hm, false) := by
  unfold SUTL_InternalHashmapErase
  simp only [hempty, hmScanFirst]

theorem hmInsert_new (ks vs : Nat) (h : List (Option Nat) → Nat)
    (c : List (Option Nat) → List (Option Nat) → Bool) (k v : List Nat)
    (hks : 0 < ks) (hvs : 0 < vs) :
    SUTL_InternalHashmapInsert (SUTL_InternalHashmapNew ks vs h c) k v =
      ({ Size := 1, KeySize := ks, ValueSize := vs,
         Keys := fun j => if j = h (stage k ks) % 32 then
             ⟨ks, ks + 2, stage k ks ++ List.replicate 2 none⟩ else bvNew,
         Values := fun j => if j = h (stage k ks) % 32 then
             ⟨vs, vs + 2, stage v vs ++ List.replicate 2 none⟩ else bvNew,
         Hash := h, KeyComp := c }, some (h (stage k ks) % 32, 0)) := by
  have hone : (0 + 1) % W = 1 := by
    rw [Nat.zero_add, Nat.mod_eq_of_lt (by unfold W; norm_num)]
  unfold SUTL_InternalHashmapInsert SUTL_InternalHashmapNew
  dsimp only
  rw [bvPushN_new _ ks (stage_length k ks) hks,
    bvPushN_new _ vs (stage_length v vs) hvs]
  simp only [hmFindLast, bvNew, hone, Nat.zero_div, List.range_zero,
    List.foldl_nil]
  rfl

theorem hm_single_entry_erase_chain (hm : SUTLHashmap) (k : List Nat)
    (hks : 0 < hm.KeySize) (hSz : hm.Size = 1)
    (hsizeK : (hm.Keys (hm.Hash (stage k hm.KeySize) % 32)).Size = hm.KeySize)
    (hsizeV : (hm.Values (hm.Hash (stage k hm.KeySize) % 32)).Size = hm.ValueSize)
    (hdata : ∃ junk, (hm.Keys (hm.Hash (stage k hm.KeySize) % 32)).data =
        stage k hm.KeySize ++ junk)
    (hrefl : hm.KeyComp (stage k hm.KeySize) (stage k hm.KeySize) = true) :
    (SUTL_InternalHashmapErase hm k).2 = false ∧
    (SUTL_InternalHashmapErase hm k).1.Size = 0 ∧
    hmGetVal (SUTL_InternalHashmapErase hm k).1 k = none ∧
    (SUTL_InternalHashmapErase (SUTL_InternalHashmapErase hm k).1 k).1.Size = 0 ∧
    (SUTL_InternalHashmapErase (SUTL_InternalHashmapErase hm k).1 k).2 = false := by
  have herase := hmErase_found_first hm k hks hsizeK hsizeV hdata hrefl
  have hW1 : (1 : Nat) < W := by unfold W; norm_num
  have hSz0 : wsub hm.Size 1 = 0 := by
    rw [hSz, wsub_eq_sub 1 1 le_rfl hW1]
  rw [herase]
  dsimp only
  refine ⟨rfl, hSz0, ?_, ?_, ?_⟩
  · unfold hmGetVal
    rw [hmGet_empty_bucket]
    case hempty => simp
    rfl
  · rw [hmErase_empty_bucket]
    case hempty => simp
    exact hSz0
  · rw [hmErase_empty_bucket]
    case hempty => simp

theorem bvPushN_size (v : ByteVec) (src : List (Option Nat)) :
    (bvPushN v src).1.Size = v.Size + src.length := by
  unfold bvPushN bvInsertN bvResize
  simp

theorem bvEraseN_size_in_range (v : ByteVec) (i c : Nat) (h : i + c ≤ v.Size) :
    (bvEraseN v i c).1.Size = v.Size - c := by
  unfold bvEraseN bvEraseCore
  rw [if_neg (not_lt.mpr h)]

theorem bvEraseN_size_oob (v : ByteVec) (i c : Nat) (h : v.Size ≤ i) :
    (bvEraseN v i c).1.Size = v.Size := by
  unfold bvEraseN bvEraseCore
  by_cases h1 : v.Size < i + c
  · rw [if_pos h1]
    by_cases h2 : v.Size < i
    · rw [if_pos h2]
    · rw [if_neg h2]
      show v.Size - (v.Size - i) = v.Size
      omega
  · rw [if_neg h1]
    show v.Size - c = v.Size
    omega

theorem hmScanFirst_found_bounds (p : Nat → Bool) (start fuel i : Nat)
    (h : (hmScanFirst p start fuel).1 = some i) :
    start ≤ i ∧ i < start + fuel := by
  induction fuel generalizing start with
  | zero => simp [hmScanFirst] at h
  | succ n ih =>
    unfold hmScanFirst at h
    by_cases hp : p start
    · rw [if_pos hp] at h
      cases h
      omega
    · rw [if_neg hp] at h
      have := ih (start + 1) h
      omega

theorem hmInsert_bucket_sizes (hm : SUTLHashmap) (k v : List Nat) (b : Nat) :
    (((SUTL_InternalHashmapInsert hm k v).1.Keys b).Size = (hm.Keys b).Size ∧
     ((SUTL_InternalHashmapInsert hm k v).1.Values b).Size = (hm.Values b).Size) ∨
    (((SUTL_InternalHashmapInsert hm k v).1.Keys b).Size =
        (hm.Keys b).Size + hm.KeySize ∧
     ((SUTL_InternalHashmapInsert hm k v).1.Values b).Size =
        (hm.Values b).Size + hm.ValueSize) := by
  unfold SUTL_InternalHashmapInsert
  dsimp only
  split
  · left
    exact ⟨rfl, rfl⟩
  · by_cases hb : b = hm.Hash (stage k hm.KeySize) % 32
    · right
      subst hb
      constructor <;> simp [bvPushN_size, stage_length]
    · left
      constructor <;> simp [hb]

theorem hmInsert_type_sizes (hm : SUTLHashmap) (k v : List Nat) :
    (SUTL_InternalHashmapInsert hm k v).1.KeySize = hm.KeySize ∧
    (SUTL_InternalHashmapInsert hm k v).1.ValueSize = hm.ValueSize := by
  unfold SUTL_InternalHashmapInsert
  dsimp only
  split <;> exact ⟨rfl, rfl⟩

theorem hmErase_type_sizes (hm : SUTLHashmap) (k : List Nat) :
    (SUTL_InternalHashmapErase hm k).1.KeySize = hm.KeySize ∧
    (SUTL_InternalHashmapErase hm k).1.ValueSize = hm.ValueSize := by
  unfold SUTL_InternalHashmapErase
  dsimp only
  split <;> exact ⟨rfl, rfl⟩

theorem hmErase_bucket_sizes (hm : SUTLHashmap) (k : List Nat) (b n : Nat)
    (hK : (hm.Keys (hm.Hash (stage k hm.KeySize) % 32)).Size =
        n * hm.KeySize)
    (hV : (hm.Values (hm.Hash (stage k hm.KeySize) % 32)).Size =
        n * hm.ValueSize) :
    (((SUTL_InternalHashmapErase hm k).1.Keys b).Size = (hm.Keys b).Size ∧
     ((SUTL_InternalHashmapErase hm k).1.Values b).Size = (hm.Values b).Size) ∨
    (n ≠ 0 ∧
     ((SUTL_InternalHashmapErase hm k).1.Keys b).Size =
        (n - 1) * hm.KeySize ∧
     ((SUTL_InternalHashmapErase hm k).1.Values b).Size =
        (n - 1) * hm.ValueSize) := by
  unfold SUTL_InternalHashmapErase
  dsimp only
  split
  · left
    exact ⟨rfl, rfl⟩
  · next i heq =>
    by_cases hb : b = hm.Hash (stage k hm.KeySize) % 32
    · subst hb
      by_cases hi : i < n
      · right
        have hn : n ≠ 0 := by omega
        refine ⟨hn, ?_, ?_⟩
        · dsimp only
          rw [if_pos rfl]
          rw [bvEraseN_size_in_range _ _ _ (by
            rw [hK]
            calc i * hm.KeySize + hm.KeySize = (i + 1) * hm.KeySize := by
                  rw [Nat.succ_mul]
              _ ≤ n * hm.KeySize := Nat.mul_le_mul_right _ (by omega))]
          rw [hK, Nat.sub_mul, one_mul]
        · dsimp only
          rw [if_pos rfl]
          rw [bvEraseN_size_in_range _ _ _ (by
            rw [hV]
            calc i * hm.ValueSize + hm.ValueSize
                  = (i + 1) * hm.ValueSize := by rw [Nat.succ_mul]
              _ ≤ n * hm.ValueSize := Nat.mul_le_mul_right _ (by omega))]
          rw [hV, Nat.sub_mul, one_mul]
      · left
        have hn : n ≤ i := by omega
        constructor
        · dsimp only
          rw [if_pos rfl]
          rw [bvEraseN_size_oob _ _ _ (by
            rw [hK]
            exact Nat.mul_le_mul_right _ hn)]
        · dsimp only
          rw [if_pos rfl]
          rw [bvEraseN_size_oob _ _ _ (by
            rw [hV]
            exact Nat.mul_le_mul_right _ hn)]
    · left
      constructor <;> simp [hb]

theorem bucketsConsistent_applyOp (hm : SUTLHashmap) (op : HMOp)
    (hinv : bucketsConsistent hm) : bucketsConsistent (hmApplyOp hm op) := by
  cases op with
  | get k => exact hinv
  | insert k v =>
    intro b
    obtain ⟨hKS, hVS⟩ := hmInsert_type_sizes hm k v
    obtain ⟨n, hK, hV⟩ := hinv b
    show ∃ m, _ ∧ _
    rcases hmInsert_bucket_sizes hm k v b with ⟨h1, h2⟩ | ⟨h1, h2⟩
    · exact ⟨n, by rw [hmApplyOp, h1, hK, hKS], by rw [hmApplyOp, h2, hV, hVS]⟩
    · refine ⟨n + 1, ?_, ?_⟩
      · rw [hmApplyOp, h1, hK, hKS, Nat.succ_mul]
      · rw [hmApplyOp, h2, hV, hVS, Nat.succ_mul]
  | erase k =>
    intro b
    obtain ⟨hKS, hVS⟩ := hmErase_type_sizes hm k
    obtain ⟨n0, hK0, hV0⟩ := hinv (hm.Hash (stage k hm.KeySize) % 32)
    obtain ⟨n, hK, hV⟩ := hinv b
    rcases hmErase_bucket_sizes hm k b n0 hK0 hV0 with ⟨h1, h2⟩ | ⟨hn0, h1, h2⟩
    · exact ⟨n, by rw [hmApplyOp, h1, hK, hKS], by rw [hmApplyOp, h2, hV, hVS]⟩
    · exact ⟨n0 - 1, by rw [hmApplyOp, h1, hKS], by rw [hmApplyOp, h2, hVS]⟩

theorem bucketsConsistent_applyOps (hm : SUTLHashmap) (ops : List HMOp)
    (hinv : bucketsConsistent hm) : bucketsConsistent (hmApplyOps hm ops) := by
  induction ops generalizing hm with
  | nil => exact hinv
  | cons op ops ih => exact ih _ (bucketsConsistent_applyOp hm op hinv)

theorem hmApplyOps_type_sizes (hm : SUTLHashmap) (ops : List HMOp) :
    (hmApplyOps hm ops).KeySize = hm.KeySize ∧
    (hmApplyOps hm ops).ValueSize = hm.ValueSize := by
  induction ops generalizing hm with
  | nil => exact ⟨rfl, rfl⟩
  | cons op ops ih =>
    have hstep : (hmApplyOp hm op).KeySize = hm.KeySize ∧
        (hmApplyOp hm op).ValueSize = hm.ValueSize := by
      cases op with
      | insert k v => exact hmInsert_type_sizes hm k v
      | erase k => exact hmErase_type_sizes hm k
      | get k => exact ⟨rfl, rfl⟩
    obtain ⟨ih1, ih2⟩ := ih (hmApplyOp hm op)
    exact ⟨by rw [hmApplyOps, List.foldl_cons, ← hmApplyOps, ih1, hstep.1],
      by rw [hmApplyOps, List.foldl_cons, ← hmApplyOps, ih2, hstep.2]⟩

theorem resize_grow_props {α : Type} (a : SUTLVector α) (n : Nat)
    (hwf : a.wf) (hn : a.Size < n) (hnW : n + 2 < W) :
    (SUTL_InternalVectorResize a n).Size = n ∧
    ∃ pad, (SUTL_InternalVectorResize a n).data = a.data ++ pad ∧
      n ≤ a.data.length + pad.length := by
  obtain ⟨hsc, hlen, hcw⟩ := hwf
  unfold SUTL_InternalVectorResize SUTL_InternalVectorReserve
  rw [if_pos hn]
  by_cases hcap : a.Capacity < n
  · rw [if_pos hcap, Nat.mod_eq_of_lt hnW, if_neg (by omega)]
    refine ⟨rfl, List.replicate (n + 2 - a.data.length) none, ?_, ?_⟩
    · dsimp only
      rw [List.take_of_length_le (by omega)]
    · simp
      omega
  · rw [if_neg hcap]
    exact ⟨rfl, [], by simp, by omega⟩

theorem take_append_exact {β : Type} (l1 l2 : List β) (n : Nat)
    (h : l1.length = n) : (l1 ++ l2).take n = l1 := by
  subst h
  simp

theorem drop_append_exact {β : Type} (l1 l2 : List β) (n : Nat)
    (h : l1.length = n) : (l1 ++ l2).drop n = l2 := by
  subst h
  simp

theorem insertOne_props {α : Type} (a : SUTLVector α) (i : Nat) (x : α)
    (hwf : a.wf) (hi : i ≤ a.Size) (hW3 : a.Size + 3 < W) :
    (SUTL_InternalVectorInsertN a i [x]).2 = some i ∧
    (SUTL_InternalVectorInsertN a i [x]).1.Size = a.Size + 1 ∧
    a.Size + 1 ≤ (SUTL_InternalVectorInsertN a i [x]).1.data.length ∧
    (SUTL_InternalVectorInsertN a i [x]).1.data.take i = a.data.take i ∧
    ((SUTL_InternalVectorInsertN a i [x]).1.data.drop (i + 1)).take (a.Size - i) =
      (a.data.drop i).take (a.Size - i) := by
  obtain ⟨hsc, hlen, hcw⟩ := hwf
  obtain ⟨hrs, pad, hrd, hrlen⟩ :=
    resize_grow_props a (a.Size + 1) ⟨hsc, hlen, hcw⟩ (by omega) (by omega)
  have hAi : i ≤ a.data.length := by omega
  unfold SUTL_InternalVectorInsertN
  rw [if_neg (by omega : ¬ i > a.Size)]
  simp only [List.length_singleton, List.map_cons, List.map_nil,
    Nat.mod_eq_of_lt (show a.Size + 1 < W by omega)]
  by_cases him : i = a.Size
  · subst him
    rw [if_neg (by simp)]
    rw [hrd, hrs]
    refine ⟨by trivial, by trivial, ?_, ?_, ?_⟩
    · simp only [List.length_append, List.length_take, List.length_drop,
        List.length_cons, List.length_nil]
      omega
    · rw [List.take_append_of_le_length, List.take_append_of_le_length,
        List.take_take, min_self, List.take_append_of_le_length hAi]
      all_goals try
        simp only [List.length_append, List.length_take, List.length_drop,
          List.length_cons, List.length_nil]
      all_goals omega
    · simp [Nat.sub_self]
  · rw [if_pos him]
    rw [hrd, hrs]
    refine ⟨by trivial, by trivial, ?_, ?_, ?_⟩
    · simp only [List.length_append, List.length_take, List.length_drop,
        List.length_cons, List.length_nil]
      omega
    · rw [List.take_append_of_le_length, List.take_append_of_le_length,
        List.take_take, min_self, List.take_append_of_le_length,
        List.take_append_of_le_length, List.take_take,
        min_eq_left (by omega : i ≤ i + 1),
        List.take_append_of_le_length hAi]
      all_goals try
        simp only [List.length_append, List.length_take, List.length_drop,
          List.length_cons, List.length_nil]
      all_goals omega
    · rw [drop_append_exact, List.append_assoc, drop_append_exact,
        take_append_exact, List.drop_append_of_le_length hAi,
        List.take_append_of_le_length]
      all_goals try
        simp only [List.length_append, List.length_take, List.length_drop,
          List.length_cons, List.length_nil]
      all_goals omega

/-- C1: inserting an already-present key does not append, but the pointer
`SUTL_InternalHashmapInsert` returns is `Values[index] + i * KeySize` — the
stride is `KeySize` — whereas the value stored for that key sits at
`Values[index] + i * ValueSize`, as `SUTL_InternalHashmapGet` computes.  In
`m2` (`KeySize = 1`, `ValueSize = 2`, key `9` at entry index `1` of bucket
0), re-inserting key `9` returns byte offset `1`, while the stored value for
key `9` occupies byte offsets `2..3`. -/
theorem c1_insert_existing_key_wrong_value_stride :
    (SUTL_InternalHashmapInsert m2 [9] [30, 31]).2 = some (0, 1 * m2.KeySize) ∧
    SUTL_InternalHashmapGet m2 [9] = some (0, 1 * m2.ValueSize) ∧
    hmGetVal m2 [9] = some [some 20, some 21] ∧
    1 * m2.KeySize ≠ 1 * m2.ValueSize ∧
    ((SUTL_InternalHashmapInsert m2 [9] [30, 31]).1.Keys 0).Size = (m2.Keys 0).Size ∧
    ((SUTL_InternalHashmapInsert m2 [9] [30, 31]).1.Values 0).Size = (m2.Values 0).Size := by
  decide

/-- C3 counterexample: on the empty vector (`Size = 0`), `EraseN` with
`at = 5 > 0` and `count = 2^64 - 5` makes `at + count` wrap to `0` in
`size_t`, so the guard `at + count > Size` fails: no error is reported and
`Size` becomes `5`, refuting the claim that `at > Size` always yields the
erase error with the state unchanged. -/
theorem c3_eraseN_wrap_counterexample :
    (SUTL_InternalVectorEraseN (SUTL_InternalVectorNew Nat) 5 (W - 5)).2 = false ∧
    (SUTL_InternalVectorEraseN (SUTL_InternalVectorNew Nat) 5 (W - 5)).1.Size = 5 ∧
    ¬ ((SUTL_InternalVectorEraseN (SUTL_InternalVectorNew Nat) 5 (W - 5)).2 = true ∧
       (SUTL_InternalVectorEraseN (SUTL_InternalVectorNew Nat) 5 (W - 5)).1.Size =
         (SUTL_InternalVectorNew Nat).Size) := by
  decide

/-- C3 (amended): provided the `size_t` sum `at + count` does not wrap below
`Size` — i.e. `(at + count) mod 2^64 > Size` — the claim holds: when
`at > Size` the erase error is reported and size, capacity and all elements
are unchanged; when `at ≤ Size < (at + count) mod 2^64`, no error is
reported, exactly `Size - at` elements are erased (the count is silently
clamped), and the elements below `at` — indeed the whole allocation — are
unchanged. -/
theorem c3_eraseN_amended {α : Type} (v : SUTLVector α) (i cnt : Nat)
    (hwf : v.wf) :
    ((i + cnt) % W > v.Size → i > v.Size →
      SUTL_InternalVectorEraseN v i cnt = (v, true)) ∧
    (i ≤ v.Size → v.Size < (i + cnt) % W →
      (SUTL_InternalVectorEraseN v i cnt).2 = false ∧
      (SUTL_InternalVectorEraseN v i cnt).1.Size = i ∧
      (SUTL_InternalVectorEraseN v i cnt).1.Capacity = v.Capacity ∧
      (SUTL_InternalVectorEraseN v i cnt).1.data = v.data) := by
  obtain ⟨hsc, _, hcw⟩ := hwf
  have hsW : v.Size < W := lt_of_le_of_lt hsc hcw
  constructor
  · intro hgt hi
    unfold SUTL_InternalVectorEraseN
    rw [if_pos hgt, if_pos hi]
  · intro hle hlt
    have hni : ¬ i > v.Size := by omega
    have hself : (i + (v.Size - i)) % W = v.Size := by
      rw [Nat.add_sub_cancel' hle, Nat.mod_eq_of_lt hsW]
    unfold SUTL_InternalVectorEraseN SUTL_InternalVectorEraseCore
    rw [if_pos hlt, if_neg hni, if_neg (by rw [hself]; exact fun h => h rfl)]
    refine ⟨rfl, ?_, rfl, rfl⟩
    show wsub v.Size (v.Size - i) = i
    rw [wsub_eq_sub _ _ (Nat.sub_le _ _) hsW]
    omega

/-- Witness for `c3_eraseN_amended` at the vector
`⟨Size 2, Capacity 3, [1, 2, ·]⟩`: `EraseN` at `5, 1` errors and leaves the
state unchanged; `EraseN` at `1, 5` erases the tail without error, leaving
size `1`. -/
theorem c3_eraseN_amended_witness :
    (SUTL_InternalVectorEraseN (⟨2, 3, [some 1, some 2, none]⟩ : SUTLVector Nat) 5 1 =
      ((⟨2, 3, [some 1, some 2, none]⟩ : SUTLVector Nat), true)) ∧
    ((SUTL_InternalVectorEraseN (⟨2, 3, [some 1, some 2, none]⟩ : SUTLVector Nat) 1 5).2 = false ∧
      (SUTL_InternalVectorEraseN (⟨2, 3, [some 1, some 2, none]⟩ : SUTLVector Nat) 1 5).1.Size = 1 ∧
      (SUTL_InternalVectorEraseN (⟨2, 3, [some 1, some 2, none]⟩ : SUTLVector Nat) 1 5).1.Capacity = 3 ∧
      (SUTL_InternalVectorEraseN (⟨2, 3, [some 1, some 2, none]⟩ : SUTLVector Nat) 1 5).1.data =
        [some 1, some 2, none]) :=
  ⟨(c3_eraseN_amended ⟨2, 3, [some 1, some 2, none]⟩ 5 1
      ⟨by decide, by decide, by decide⟩).1 (by decide) (by decide),
   (c3_eraseN_amended ⟨2, 3, [some 1, some 2, none]⟩ 1 5
      ⟨by decide, by decide, by decide⟩).2 (by decide) (by decide)⟩

/-- C2: the map round trip on a fresh hashmap, for any key `k` and value `v`
(with a positive key/value size, `v` of the value size, and a key comparison
that is reflexive on the staged key): after `Insert(m, k, v)`, `Get(m, k)`
reads back exactly the bytes of `v` and `Size = 1`; after `Erase(m, k)`,
`Get(m, k)` is NULL (`none`) and `Size = 0`; a second `Erase(m, k)` keeps
`Size = 0` and invokes no error callback (the first erase is error-free
too). -/
theorem c2_map_round_trip (ks vs : Nat) (h : List (Option Nat) → Nat)
    (c : List (Option Nat) → List (Option Nat) → Bool) (k v : List Nat)
    (hks : 0 < ks) (hvs : 0 < vs) (hv : v.length = vs)
    (hrefl : c (stage k ks) (stage k ks) = true) :
    hmGetVal (SUTL_InternalHashmapInsert (SUTL_InternalHashmapNew ks vs h c) k v).1 k
      = some (v.map some) ∧
    (SUTL_InternalHashmapInsert (SUTL_InternalHashmapNew ks vs h c) k v).1.Size = 1 ∧
    ((SUTL_InternalHashmapErase
        (SUTL_InternalHashmapInsert (SUTL_InternalHashmapNew ks vs h c) k v).1 k).2 = false ∧
      (SUTL_InternalHashmapErase
        (SUTL_InternalHashmapInsert (SUTL_InternalHashmapNew ks vs h c) k v).1 k).1.Size = 0 ∧
      hmGetVal (SUTL_InternalHashmapErase
        (SUTL_InternalHashmapInsert (SUTL_InternalHashmapNew ks vs h c) k v).1 k).1 k = none ∧
      (SUTL_InternalHashmapErase (SUTL_InternalHashmapErase
        (SUTL_InternalHashmapInsert (SUTL_InternalHashmapNew ks vs h c) k v).1 k).1 k).1.Size = 0 ∧
      (SUTL_InternalHashmapErase (SUTL_InternalHashmapErase
        (SUTL_InternalHashmapInsert (SUTL_InternalHashmapNew ks vs h c) k v).1 k).1 k).2 = false) := by
  have hins := hmInsert_new ks vs h c k v hks hvs
  have hreadV : bvRead ⟨vs, vs + 2, stage v vs ++ List.replicate 2 none⟩ 0 vs
      = stage v vs :=
    bvRead_data _ _ (List.replicate 2 none) _ rfl (stage_length v vs)
  rw [hins]
  dsimp only
  refine ⟨?_, rfl, ?_⟩
  · unfold hmGetVal
    rw [hmGet_found_first]
    case hks => simpa using hks
    case hsizeK => simp
    case hdata => exact ⟨List.replicate 2 none, by simp⟩
    case hrefl => simpa using hrefl
    dsimp only [Option.map]
    simp only [eq_self_iff_true, if_true]
    rw [hreadV, stage_of_length v vs hv]
  · exact hm_single_entry_erase_chain _ k (by simpa using hks) rfl (by simp)
      (by simp) ⟨List.replicate 2 none, by simp⟩ (by simpa using hrefl)

/-- Witness for `c2_map_round_trip`: the round trip on a fresh map with
1-byte keys and values, key `5`, value `7`, the constant hash and byte-wise
equality. -/
theorem c2_map_round_trip_witness :
    hmGetVal (SUTL_InternalHashmapInsert
        (SUTL_InternalHashmapNew 1 1 zeroHash eqComp) [5] [7]).1 [5]
      = some ([7].map some) ∧
    (SUTL_InternalHashmapInsert
        (SUTL_InternalHashmapNew 1 1 zeroHash eqComp) [5] [7]).1.Size = 1 ∧
    ((SUTL_InternalHashmapErase (SUTL_InternalHashmapInsert
        (SUTL_InternalHashmapNew 1 1 zeroHash eqComp) [5] [7]).1 [5]).2 = false ∧
      (SUTL_InternalHashmapErase (SUTL_InternalHashmapInsert
        (SUTL_InternalHashmapNew 1 1 zeroHash eqComp) [5] [7]).1 [5]).1.Size = 0 ∧
      hmGetVal (SUTL_InternalHashmapErase (SUTL_InternalHashmapInsert
        (SUTL_InternalHashmapNew 1 1 zeroHash eqComp) [5] [7]).1 [5]).1 [5] = none ∧
      (SUTL_InternalHashmapErase (SUTL_InternalHashmapErase
        (SUTL_InternalHashmapInsert
          (SUTL_InternalHashmapNew 1 1 zeroHash eqComp) [5] [7]).1 [5]).1 [5]).1.Size = 0 ∧
      (SUTL_InternalHashmapErase (SUTL_InternalHashmapErase
        (SUTL_InternalHashmapInsert
          (SUTL_InternalHashmapNew 1 1 zeroHash eqComp) [5] [7]).1 [5]).1 [5]).2 = false) :=
  c2_map_round_trip 1 1 zeroHash eqComp [5] [7] (by decide) (by decide)
    (by decide) (by decide)

/-- C4: every map or set insert increments the `Size` field by one (in
`size_t` arithmetic) regardless of whether the key was already present, and
concretely, inserting key `5` twice into the fresh one-byte map `r0` leaves
`Size = 2` while bucket 0 stores exactly one entry. -/
theorem c4_insert_always_increments_size :
    (∀ (hm : SUTLHashmap) (k v : List Nat),
      (SUTL_InternalHashmapInsert hm k v).1.Size = (hm.Size + 1) % W) ∧
    (∀ (hs : SUTLHashset) (k : List Nat),
      (SUTL_InternalHashsetInsert hs k).1.Size = (hs.Size + 1) % W) ∧
    ((SUTL_InternalHashmapInsert r1 [5] [9]).1.Size = 2 ∧
      (((SUTL_InternalHashmapInsert r1 [5] [9]).1).Keys 0).Size / r1.KeySize = 1) := by
  refine ⟨fun hm k v => ?_, fun hs k => ?_, by decide, by decide⟩
  · simp only [SUTL_InternalHashmapInsert]
    split <;> rfl
  · simp only [SUTL_InternalHashsetInsert]
    split <;> rfl

/-- C8: on the one-byte string `"A"` (byte 65, length not a multiple of the
word size), `SUTLHash_string` returns the bare chunk fold `SIZE_MAX`: its
tail loop writes through the accumulator's value used as an address
(`(char *)hash`, not `(char *)&hash`) and never folds the tail byte into the
accumulator, while the spec's byte-wise tail fold yields
`SIZE_MAX XOR 65`. -/
theorem c8_hash_string_tail_not_folded :
    SUTLHash_string [65] = W - 1 ∧
    specStringHash [65] = (W - 1) ^^^ 65 ∧
    SUTLHash_string [65] ≠ specStringHash [65] := by
  decide

/-- C10: in `p1` (`KeySize = 2`, one live entry in bucket 0, so the key
array holds 2 bytes), erasing the absent key `(5, 6)` performs comparisons
at loop indices `0` and `1` — the loop bound is the bucket's byte count, not
its entry count — so the comparison at index `1` reads the key slot at entry
index `1`, which is not below the live entry count `1`. -/
theorem c10_erase_scan_reads_past_live_entries :
    hmEraseProbes p1 [5, 6] = [0, 1] ∧
    (p1.Keys 0).Size / p1.KeySize = 1 ∧
    ¬ (∀ i ∈ hmEraseProbes p1 [5, 6], i < (p1.Keys 0).Size / p1.KeySize) := by
  decide

/-- C9: for every well-formed vector `a`, index `i ≤ Size` and element `x`
(sizes below the `size_t` range), erasing at `i` right after inserting `x`
at `i` reports no error and yields a vector with the same size and the same
element sequence as `a` (the live prefix `data.take Size` is unchanged, so
every element at every index of `a` is unchanged). -/
theorem c9_insert_erase_inverse {α : Type} (a : SUTLVector α) (i : Nat) (x : α)
    (hwf : a.wf) (hi : i ≤ a.Size) (hW3 : a.Size + 3 < W) :
    (SUTL_InternalVectorEraseN (SUTL_InternalVectorInsertN a i [x]).1 i 1).2 = false ∧
    (SUTL_InternalVectorEraseN (SUTL_InternalVectorInsertN a i [x]).1 i 1).1.Size = a.Size ∧
    (SUTL_InternalVectorEraseN
        (SUTL_InternalVectorInsertN a i [x]).1 i 1).1.data.take a.Size =
      a.data.take a.Size := by
  obtain ⟨-, hsz, hlenv, htake, hdrop⟩ := insertOne_props a i x hwf hi hW3
  have hmod : (i + 1) % W = i + 1 := Nat.mod_eq_of_lt (by omega)
  have hwa : wsub (a.Size + 1) 1 = a.Size := by
    rw [wsub_eq_sub _ _ (by omega) (by omega)]
    omega
  have hwsi : wsub a.Size i = a.Size - i := wsub_eq_sub _ _ hi (by omega)
  have hsplit : a.data.take a.Size =
      a.data.take i ++ (a.data.drop i).take (a.Size - i) := by
    conv_lhs => rw [← List.take_append_drop i (a.data.take a.Size)]
    rw [List.take_take, min_eq_left hi, List.drop_take]
  unfold SUTL_InternalVectorEraseN SUTL_InternalVectorEraseCore
  rw [hmod, hsz]
  rw [if_neg (by omega : ¬ i + 1 > a.Size + 1)]
  rw [hwa, hwsi]
  by_cases him : i = a.Size
  · subst him
    rw [if_neg (by omega : ¬ a.Size + 1 ≠ a.Size + 1)]
    exact ⟨rfl, rfl, htake⟩
  · rw [if_pos (by omega : i + 1 ≠ a.Size + 1)]
    refine ⟨rfl, rfl, ?_⟩
    dsimp only
    rw [take_append_exact]
    rotate_left
    · simp only [List.length_append, List.length_take, List.length_drop]
      omega
    rw [htake, hdrop, ← hsplit]

/-- Witness for `c9_insert_erase_inverse` at the vector
`⟨Size 2, Capacity 3, [10, 11, ·]⟩`, index `1`, element `99`. -/
theorem c9_insert_erase_inverse_witness :
    (SUTL_InternalVectorEraseN
      (SUTL_InternalVectorInsertN (⟨2, 3, [some 10, some 11, none]⟩ : SUTLVector Nat)
        1 [99]).1 1 1).2 = false ∧
    (SUTL_InternalVectorEraseN
      (SUTL_InternalVectorInsertN (⟨2, 3, [some 10, some 11, none]⟩ : SUTLVector Nat)
        1 [99]).1 1 1).1.Size = (⟨2, 3, [some 10, some 11, none]⟩ : SUTLVector Nat).Size ∧
    (SUTL_InternalVectorEraseN
      (SUTL_InternalVectorInsertN (⟨2, 3, [some 10, some 11, none]⟩ : SUTLVector Nat)
        1 [99]).1 1 1).1.data.take (⟨2, 3, [some 10, some 11, none]⟩ : SUTLVector Nat).Size =
      (⟨2, 3, [some 10, some 11, none]⟩ : SUTLVector Nat).data.take
        (⟨2, 3, [some 10, some 11, none]⟩ : SUTLVector Nat).Size :=
  c9_insert_erase_inverse ⟨2, 3, [some 10, some 11, none]⟩ 1 99
    ⟨by decide, by decide, by decide⟩ (by decide) (by decide)

/-- C5: starting from a freshly created hashmap (with positive key and value
sizes), after every finite sequence of Insert/Erase/Get operations every
bucket's key array and value array measure the same entry count: the key
array holds `n * KeySize` bytes and the value array `n * ValueSize` bytes
for a common `n`, so the byte length of the keys divided by `KeySize` equals
the byte length of the values divided by `ValueSize`. -/
theorem c5_bucket_consistency (ks vs : Nat) (h : List (Option Nat) → Nat)
    (c : List (Option Nat) → List (Option Nat) → Bool) (ops : List HMOp)
    (hks : 0 < ks) (hvs : 0 < vs) :
    bucketsConsistent (hmApplyOps (SUTL_InternalHashmapNew ks vs h c) ops) ∧
    ∀ b, ((hmApplyOps (SUTL_InternalHashmapNew ks vs h c) ops).Keys b).Size /
          (hmApplyOps (SUTL_InternalHashmapNew ks vs h c) ops).KeySize =
        ((hmApplyOps (SUTL_InternalHashmapNew ks vs h c) ops).Values b).Size /
          (hmApplyOps (SUTL_InternalHashmapNew ks vs h c) ops).ValueSize := by
  have hbase : bucketsConsistent (SUTL_InternalHashmapNew ks vs h c) :=
    fun b => ⟨0, by simp [SUTL_InternalHashmapNew, bvNew],
      by simp [SUTL_InternalHashmapNew, bvNew]⟩
  have hinv := bucketsConsistent_applyOps _ ops hbase
  refine ⟨hinv, fun b => ?_⟩
  obtain ⟨hKS, hVS⟩ := hmApplyOps_type_sizes (SUTL_InternalHashmapNew ks vs h c) ops
  obtain ⟨n, hK, hV⟩ := hinv b
  rw [hK, hV, hKS, hVS]
  show n * ks / ks = n * vs / vs
  rw [Nat.mul_div_cancel n hks, Nat.mul_div_cancel n hvs]

/-- Witness for `c5_bucket_consistency`: a fresh byte-keyed map after an
insert, an erase of an absent key, a get, and a second insert. -/
theorem c5_bucket_consistency_witness :
    bucketsConsistent (hmApplyOps (SUTL_InternalHashmapNew 1 1 zeroHash eqComp)
      [HMOp.insert [3] [4], HMOp.erase [9], HMOp.get [3], HMOp.insert [5] [6]]) ∧
    ∀ b, ((hmApplyOps (SUTL_InternalHashmapNew 1 1 zeroHash eqComp)
            [HMOp.insert [3] [4], HMOp.erase [9], HMOp.get [3],
              HMOp.insert [5] [6]]).Keys b).Size /
          (hmApplyOps (SUTL_InternalHashmapNew 1 1 zeroHash eqComp)
            [HMOp.insert [3] [4], HMOp.erase [9], HMOp.get [3],
              HMOp.insert [5] [6]]).KeySize =
        ((hmApplyOps (SUTL_InternalHashmapNew 1 1 zeroHash eqComp)
            [HMOp.insert [3] [4], HMOp.erase [9], HMOp.get [3],
              HMOp.insert [5] [6]]).Values b).Size /
          (hmApplyOps (SUTL_InternalHashmapNew 1 1 zeroHash eqComp)
            [HMOp.insert [3] [4], HMOp.erase [9], HMOp.get [3],
              HMOp.insert [5] [6]]).ValueSize :=
  c5_bucket_consistency 1 1 zeroHash eqComp
    [HMOp.insert [3] [4], HMOp.erase [9], HMOp.get [3], HMOp.insert [5] [6]]
    (by decide) (by decide)

/-- C6: `Slice(str, at, size)` errors (and returns NULL) exactly when
`at ≥ Size` — `at = Size` included; otherwise it returns a fresh string
whose reported `Size` is the requested `size` when `size ≠ 0` (even when
`at + size` overshoots) and `Size - at` when `size = 0`, and whose first
`min(size', Size - at)` bytes equal the bytes of `str` starting at `at`
(`size'` being the effective requested length).  The side conditions keep
the `size_t` sums away from 64-bit wraparound. -/
theorem c6_slice_error_iff_and_contents (str : SUTLString) (i sz : Nat)
    (hS : str.Size + 2 < W) (hW : i + sz < W) (hszW : sz + 2 < W) :
    ((SUTL_InternalStringSlice str i sz).2 = true ↔ str.Size ≤ i) ∧
    ((SUTL_InternalStringSlice str i sz).1 = none ↔ str.Size ≤ i) ∧
    (i < str.Size →
      ∃ sl, (SUTL_InternalStringSlice str i sz).1 = some sl ∧
        sl.Size = (if sz = 0 then str.Size - i else sz) ∧
        ∀ j, j < min (if sz = 0 then str.Size - i else sz) (str.Size - i) →
          sl.data.getD j none = str.data.getD (i + j) none) := by
  by_cases hi : i < str.Size
  · have hi' : ¬ str.Size ≤ i := not_le.mpr hi
    by_cases hsz : sz = 0
    · subst hsz
      rw [slice_eval_zero str i hi hS]
      simp only [if_true]
      refine ⟨by simp [hi'], by simp [hi'], fun _ => ⟨_, rfl, rfl, fun j hj => ?_⟩⟩
      rw [min_self] at hj
      rw [List.getD_append _ _ _ _ (by simpa using hj),
        getD_range_map _ _ _ _ hj]
    · have hsz0 : 0 < sz := Nat.pos_of_ne_zero hsz
      rw [slice_eval_pos str i sz hi hsz0 hW hszW]
      simp only [if_neg hsz]
      refine ⟨by simp [hi'], by simp [hi'], fun _ => ⟨_, rfl, rfl, fun j hj => ?_⟩⟩
      rw [List.getD_append _ _ _ _ (by simpa using hj),
        getD_range_map _ _ _ _ hj]
  · have hge : i ≥ str.Size := Nat.le_of_not_lt hi
    have hres : SUTL_InternalStringSlice str i sz = (none, true) := by
      unfold SUTL_InternalStringSlice
      rw [if_pos hge]
    rw [hres]
    exact ⟨by simpa using hge, by simpa using hge, fun h => absurd h hi⟩

/-- Witness for `c6_slice_error_iff_and_contents` on `"0123456789"` at
`at = 7`, `size = 5` (an overshooting slice). -/
theorem c6_slice_witness :
    ((SUTL_InternalStringSlice str10 7 5).2 = true ↔ str10.Size ≤ 7) ∧
    ((SUTL_InternalStringSlice str10 7 5).1 = none ↔ str10.Size ≤ 7) ∧
    (7 < str10.Size →
      ∃ sl, (SUTL_InternalStringSlice str10 7 5).1 = some sl ∧
        sl.Size = (if 5 = 0 then str10.Size - 7 else 5) ∧
        ∀ j, j < min (if 5 = 0 then str10.Size - 7 else 5) (str10.Size - 7) →
          sl.data.getD j none = str10.data.getD (7 + j) none) :=
  c6_slice_error_iff_and_contents str10 7 5 (by decide) (by decide) (by decide)

/-- C7 counterexample: slicing `"0123456789"` at `7` with requested size `5`
copies only the 3 available bytes; byte 3 of the result was never written by
`Slice` (it is uninitialized fresh allocation), not the zero byte the claim
requires. -/
theorem c7_slice_padding_counterexample :
    ((SUTL_InternalStringSlice str10 7 5).1.map (fun sl => sl.Size)) = some 5 ∧
    ((SUTL_InternalStringSlice str10 7 5).1.map (fun sl => sl.data.getD 3 none)) =
      some none ∧
    some (none : Option Nat) ≠ some (some 0) := by
  decide

/-- C7 (amended): for a valid overshooting slice (`at < Size < at + size`,
`size ≠ 0`), every byte of the returned slice at positions `≥ Size - at` is
*uninitialized* — `Slice` never writes it (the model reads it as `none`) —
rather than guaranteed zero. -/
theorem c7_slice_padding_amended (str : SUTLString) (i sz : Nat)
    (hi : i < str.Size) (hsz : 0 < sz) (hover : str.Size < i + sz)
    (hW : i + sz < W) (hszW : sz + 2 < W) :
    ∃ sl, (SUTL_InternalStringSlice str i sz).1 = some sl ∧ sl.Size = sz ∧
      ∀ p, str.Size - i ≤ p → sl.data.getD p none = none := by
  rw [slice_eval_pos str i sz hi hsz hW hszW]
  refine ⟨_, rfl, rfl, fun p hp => ?_⟩
  have hmin : min sz (str.Size - i) = str.Size - i := by omega
  rw [hmin]
  rw [List.getD_append_right _ _ _ _ (by simpa using hp), List.drop_replicate]
  exact getD_replicate_none _ _

/-- Witness for `c7_slice_padding_amended` on `"0123456789"` at `at = 7`,
`size = 5`. -/
theorem c7_slice_padding_amended_witness :
    ∃ sl, (SUTL_InternalStringSlice str10 7 5).1 = some sl ∧ sl.Size = 5 ∧
      ∀ p, str10.Size - 7 ≤ p → sl.data.getD p none = none :=
  c7_slice_padding_amended str10 7 5 (by decide) (by decide) (by decide)
    (by decide) (by decide)
